import Mathlib

/-!
Shallow embedding of `twinning.py` (JunctionLines-10MNiMnGa): crystallographic
orientation relationships for non-conventional mechanical twins.

Modelling conventions:
* numpy float arrays become functions `Fin 3 → ℝ` (vectors) and
  `Matrix (Fin 3) (Fin 3) ℝ`; float arithmetic is idealised as exact real
  arithmetic.
* `numpy.linalg.inv` raises `LinAlgError` on an exactly singular matrix; it is
  modelled by `npInv`, returning `none` exactly when the determinant vanishes.
* `np.sqrt` is `Real.sqrt`; the NaN-producing float paths (square root of a
  negative, division by a zero norm) are outside the error model, and theorems
  touching them carry explicit non-degeneracy hypotheses.
* the in-place update `P[ind] = 0` of `applythresh` is modelled by explicit
  state passing over a store of numpy arrays (`NpStore`).
-/

open Matrix

noncomputable section

/-- `r @ r.T` for two 1-d arrays of length 3: the euclidean dot product. -/
def dot3 (v w : Fin 3 → ℝ) : ℝ :=
  v 0 * w 0 + v 1 * w 1 + v 2 * w 2

/-- The normalisation idiom `r / np.sqrt(r @ r.T)` used at `twinning.py:111`,
`twinning.py:181` and `twinning.py:184`. -/
def unit3 (v : Fin 3 → ℝ) : Fin 3 → ℝ :=
  fun i => v i / Real.sqrt (dot3 v v)

/-- Default threshold `t = 10**-9` of `applythresh` (`twinning.py:210`). -/
def defaultThresh : ℝ := 10 ^ (-9 : ℤ)

/-- `applythresh(P, t)` (`twinning.py:210-231`) as a mathematical function on
the array's contents: `ind = np.absolute(P) < t; P[ind] = 0; return P`.
Elements indexed by an arbitrary type `ι` (numpy arrays of any shape; a numpy
scalar is the 0-d case). -/
def applythresh {ι : Type} (P : ι → ℝ) (t : ℝ := defaultThresh) : ι → ℝ :=
  fun i => if |P i| < t then 0 else P i

/-- `applythresh` at a 3×3 matrix (the use at `twinning.py:134`). -/
def applythreshM (P : Matrix (Fin 3) (Fin 3) ℝ) (t : ℝ := defaultThresh) :
    Matrix (Fin 3) (Fin 3) ℝ :=
  Matrix.of fun i j => if |P i j| < t then 0 else P i j

/-- A store of numpy array objects, addressed by object identity; used to model
the Python-level aliasing behaviour of `applythresh`. -/
structure NpStore (ι : Type) where
  arrs : Nat → ι → ℝ

/-- `applythresh` as it executes in Python (`twinning.py:224-231`): the body
`P[ind] = 0` mutates the array object `p` of the store in place, and `return P`
returns the same reference. State-passing model of the mutation. -/
def applythreshIP {ι : Type} (σ : NpStore ι) (p : Nat) (t : ℝ := defaultThresh) :
    NpStore ι × Nat :=
  (⟨fun q => if q = p then applythresh (σ.arrs p) t else σ.arrs q⟩, p)

/-- `np.degrees` : radians to degrees. -/
def degrees (x : ℝ) : ℝ := x * 180 / Real.pi

/-- `numpy.linalg.inv`: raises `LinAlgError` (here: `none`) when the matrix is
singular, otherwise returns the inverse. -/
def npInv (A : Matrix (Fin 3) (Fin 3) ℝ) : Option (Matrix (Fin 3) (Fin 3) ℝ) :=
  if A.det = 0 then none else some A⁻¹

/-- `angleTBpair(rPm, k1_m, k2_m)` (`twinning.py:15-42`): the angle in degrees
between the traces of two planes in the `[x,y]` reference plane. -/
def angleTBpair (rPm : Matrix (Fin 3) (Fin 3) ℝ) (k1_m k2_m : Fin 3 → ℝ) :
    Option ℝ :=
  match npInv rPm with
  | none => none
  | some iP =>
    -- plane normal in reference frame (lines 31-32)
    let k1_r := Matrix.vecMul k1_m iP
    let k2_r := Matrix.vecMul k2_m iP
    -- slope of the twin boundary line in [x,y]_r (lines 35-36)
    let m1 := -k1_r 0 / k1_r 1
    let m2 := -k2_r 0 / k2_r 1
    -- phi is the angle between two lines with slope m1 and m2 (line 39)
    let phi := Real.arctan |(m1 - m2) / (1 + m1 * m2)|
    some (degrees phi)

/-- The hard-coded correspondence matrix `C` (`twinning.py:173`). -/
def corrC : Matrix (Fin 3) (Fin 3) ℝ :=
  !![0, -1, 0; 1, 0, 0; 0, 0, 1]

/-- The metric tensor `G = X.T @ X` with `X = rPm * a`
(`twinning.py:169-170`). -/
def metricG (rPm : Matrix (Fin 3) (Fin 3) ℝ) (a : ℝ) :
    Matrix (Fin 3) (Fin 3) ℝ :=
  (a • rPm)ᵀ * (a • rPm)

/-- Body of `OR_NCtwins` after the sign normalisation (`twinning.py:168-204`).
Each step mirrors the source in order; the two `inv` calls that numpy makes on
`G` (line 176) and on `rPm` (lines 180 and 203, same value) go through
`npInv`, as does `inv(rS)` (line 203). -/
def OR_core (K1 eta1 : Fin 3 → ℝ) (rPm : Matrix (Fin 3) (Fin 3) ℝ) (a : ℝ) :
    Option (Matrix (Fin 3) (Fin 3) ℝ) :=
  -- metric tensor (lines 169-170)
  let G := metricG rPm a
  -- calculate shear (line 176)
  match npInv G with
  | none => none
  | some Ginv =>
    let s := Real.sqrt (Matrix.trace (corrCᵀ * G * corrC * Ginv) - 3)
    -- obtain plane normal (m) and shear direction (l) in R-frame (lines 180-184)
    match npInv rPm with
    | none => none
    | some iP =>
      let rm := unit3 (Matrix.vecMul K1 iP)
      let rl := unit3 (rPm.mulVec eta1)
      -- shear matrix, entry by entry (lines 187-200)
      let rS : Matrix (Fin 3) (Fin 3) ℝ := Matrix.of
        ![![1 + s * rl 0 * rm 0, 0 + s * rl 0 * rm 1, 0 + s * rl 0 * rm 2],
          ![0 + s * rl 1 * rm 0, 1 + s * rl 1 * rm 1, 0 + s * rl 1 * rm 2],
          ![0 + s * rl 2 * rm 0, 0 + s * rl 2 * rm 1, 1 + s * rl 2 * rm 2]]
      -- orientation relationship in R-frame (line 203)
      match npInv rS with
      | none => none
      | some iS => some (rPm * corrC * iP * iS)

/-- `OR_NCtwins(K1, eta1, rPm, a, normal_pos)` (`twinning.py:141-204`):
sign normalisation when the plane normal is not positive (lines 164-166),
then the core computation. -/
def OR_NCtwins (K1 eta1 : Fin 3 → ℝ) (rPm : Matrix (Fin 3) (Fin 3) ℝ) (a : ℝ)
    (normal_pos : Bool := true) : Option (Matrix (Fin 3) (Fin 3) ℝ) :=
  let eta1 := if normal_pos = false then -eta1 else eta1
  let K1 := if normal_pos = false then -K1 else K1
  OR_core K1 eta1 rPm a

/-- Rows of the Rodrigues rotation matrix (`twinning.py:113-130`), built from
the already-normalised axis `u = (ux, uy, uz)`; the three rows are transcribed
term by term from the source. -/
def rodriguesRows (u : Fin 3 → ℝ) (theta : ℝ) : Matrix (Fin 3) (Fin 3) ℝ :=
  let ux := u 0
  let uy := u 1
  let uz := u 2
  Matrix.of
    ![![Real.cos theta + (ux ^ 2 * (1 - Real.cos theta)),
        (ux * uy * (1 - Real.cos theta)) - (uz * Real.sin theta),
        (ux * uz * (1 - Real.cos theta)) + (uy * Real.sin theta)],
      ![(uy * ux * (1 - Real.cos theta)) + (uz * Real.sin theta),
        Real.cos theta + (uy ^ 2 * (1 - Real.cos theta)),
        (uy * uz * (1 - Real.cos theta)) - (ux * Real.sin theta)],
      ![(uz * ux * (1 - Real.cos theta)) - (uy * Real.sin theta),
        (uz * uy * (1 - Real.cos theta)) + (ux * Real.sin theta),
        Real.cos theta + (uz ^ 2 * (1 - Real.cos theta))]]

/-- `rotationmatrix(r, theta)` (`twinning.py:95-134`): normalise the axis
(line 111), build the Rodrigues rows (lines 116-130), then pass the result
through `applythresh` (line 134). -/
def rotationmatrix (r : Fin 3 → ℝ) (theta : ℝ) : Matrix (Fin 3) (Fin 3) ℝ :=
  applythreshM (rodriguesRows (unit3 r) theta)

/-- Spec-side shear magnitude: `s = sqrt(trace(CᵗGC·G⁻¹) − 3)`. -/
def shearMag (rPm : Matrix (Fin 3) (Fin 3) ℝ) (a : ℝ) : ℝ :=
  Real.sqrt
    (Matrix.trace (corrCᵀ * metricG rPm a * corrC * (metricG rPm a)⁻¹) - 3)

/-- Spec-side `rm`: the unit vector of `K1·rPm⁻¹`. -/
def rmSpec (K1 : Fin 3 → ℝ) (rPm : Matrix (Fin 3) (Fin 3) ℝ) : Fin 3 → ℝ :=
  unit3 (Matrix.vecMul K1 rPm⁻¹)

/-- Spec-side `rl`: the unit vector of `rPm·eta1`. -/
def rlSpec (eta1 : Fin 3 → ℝ) (rPm : Matrix (Fin 3) (Fin 3) ℝ) : Fin 3 → ℝ :=
  unit3 (rPm.mulVec eta1)

/-- Spec-side shear matrix: `rS = I + s·(rl ⊗ rm)`, entry `(i,j)` equal to the
identity entry plus `s·rl[i]·rm[j]`. -/
def rSspec (K1 eta1 : Fin 3 → ℝ) (rPm : Matrix (Fin 3) (Fin 3) ℝ) (a : ℝ) :
    Matrix (Fin 3) (Fin 3) ℝ :=
  1 + shearMag rPm a • Matrix.vecMulVec (rlSpec eta1 rPm) (rmSpec K1 rPm)

/-- Spec-side result: `rL = rPm·C·rPm⁻¹·rS⁻¹`. -/
def OR_formula (K1 eta1 : Fin 3 → ℝ) (rPm : Matrix (Fin 3) (Fin 3) ℝ)
    (a : ℝ) : Matrix (Fin 3) (Fin 3) ℝ :=
  rPm * corrC * rPm⁻¹ * (rSspec K1 eta1 rPm a)⁻¹

end

/-- C3 — `applythresh` contract: each element below the threshold in absolute
value is replaced by exactly `0`, each element at or above it is returned
unchanged, and consequently every output element `e` satisfies `|e| ≥ t` or
`e = 0`. -/
theorem applythresh_contract {ι : Type} (P : ι → ℝ) (t : ℝ) (i : ι) :
    (|P i| < t → applythresh P t i = 0) ∧
    (t ≤ |P i| → applythresh P t i = P i) ∧
    (t ≤ |applythresh P t i| ∨ applythresh P t i = 0) := by
  unfold applythresh
  split_ifs with h
  · exact ⟨fun _ => rfl, fun h2 => absurd h (not_lt.mpr h2), Or.inr rfl⟩
  · exact ⟨fun h1 => absurd h1 h, fun _ => rfl, Or.inl (not_lt.mp h)⟩

/-- Witness for C3 at the concrete array `[1/2]` with threshold `1`. -/
theorem applythresh_contract_witness :
    applythresh (fun _ : Fin 1 => (1/2 : ℝ)) 1 0 = 0 :=
  (applythresh_contract (fun _ : Fin 1 => (1/2 : ℝ)) 1 0).1 (by norm_num [abs_lt])

/-- C9 — `applythresh` mutates the caller's array in place and the returned
value aliases the argument: in the store model, the returned reference is the
argument reference, the array it names now holds the thresholded contents, and
no other array of the store is touched. -/
theorem applythresh_inplace {ι : Type} (σ : NpStore ι) (p : Nat) (t : ℝ) :
    (applythreshIP σ p t).2 = p ∧
    ((applythreshIP σ p t).1.arrs ((applythreshIP σ p t).2) =
      applythresh (σ.arrs p) t) ∧
    (∀ q, q ≠ p → (applythreshIP σ p t).1.arrs q = σ.arrs q) := by
  refine ⟨rfl, by simp [applythreshIP], fun q hq => by simp [applythreshIP, hq]⟩

/-- Witness for C9 at a concrete two-array store. -/
theorem applythresh_inplace_witness :
    (applythreshIP (⟨fun n _ => (n : ℝ)⟩ : NpStore (Fin 1)) 0 1).1.arrs 1 =
      (⟨fun n _ => (n : ℝ)⟩ : NpStore (Fin 1)).arrs 1 :=
  (applythresh_inplace (⟨fun n _ => (n : ℝ)⟩ : NpStore (Fin 1)) 0 1).2.2 1
    (by norm_num)

lemma dot3_neg_neg (v : Fin 3 → ℝ) : dot3 (-v) (-v) = dot3 v v := by
  simp [dot3]

lemma unit3_neg (v : Fin 3 → ℝ) : unit3 (-v) = -unit3 v := by
  funext i
  simp [unit3, dot3_neg_neg, neg_div]

lemma metricG_det (rPm : Matrix (Fin 3) (Fin 3) ℝ) (a : ℝ) :
    (metricG rPm a).det = (a ^ 3 * rPm.det) ^ 2 := by
  simp [metricG, Matrix.det_mul, Matrix.det_transpose, Matrix.det_smul]
  ring

/-- Negating both the twin plane and the shear direction leaves the core
computation unchanged: both reference-frame unit vectors flip sign and the
outer-product shear matrix is unaffected. -/
lemma OR_core_neg_neg (K1 eta1 : Fin 3 → ℝ) (rPm : Matrix (Fin 3) (Fin 3) ℝ)
    (a : ℝ) : OR_core (-K1) (-eta1) rPm a = OR_core K1 eta1 rPm a := by
  simp only [OR_core]
  cases npInv (metricG rPm a) with
  | none => rfl
  | some Ginv =>
    simp only
    cases npInv rPm with
    | none => rfl
    | some iP =>
      simp only [Matrix.neg_vecMul, Matrix.mulVec_neg, unit3_neg, Pi.neg_apply,
        mul_neg, neg_mul, neg_neg]

/-- C4 — the sign convention cancels: calling with `(K1, eta1, normal_pos =
true)` and with `(−K1, −eta1, normal_pos = false)` gives identical results. -/
theorem OR_NCtwins_sign_cancel (K1 eta1 : Fin 3 → ℝ)
    (rPm : Matrix (Fin 3) (Fin 3) ℝ) (a : ℝ) :
    OR_NCtwins K1 eta1 rPm a true = OR_NCtwins (-K1) (-eta1) rPm a false := by
  simp [OR_NCtwins]

/-- C5 — the `normal_pos` flag has no effect on the result at all: negating
both `K1` and `eta1` negates both unit vectors `rm` and `rl`, leaving the
outer product `rl ⊗ rm`, hence `rS` and `rL`, unchanged. -/
theorem OR_NCtwins_normal_pos_irrelevant (K1 eta1 : Fin 3 → ℝ)
    (rPm : Matrix (Fin 3) (Fin 3) ℝ) (a : ℝ) :
    OR_NCtwins K1 eta1 rPm a false = OR_NCtwins K1 eta1 rPm a true := by
  simp [OR_NCtwins, OR_core_neg_neg]

/-- C6 — a singular `rPm` makes the OR calculator fail with the
singular-matrix error (the first required inverse, `inv(G)`, does not exist
because `det G = (a³·det rPm)² = 0`); no numeric result is returned. -/
theorem OR_NCtwins_singular (K1 eta1 : Fin 3 → ℝ)
    (rPm : Matrix (Fin 3) (Fin 3) ℝ) (a : ℝ) (normal_pos : Bool)
    (h : rPm.det = 0) :
    OR_NCtwins K1 eta1 rPm a normal_pos = none := by
  have hG : npInv (metricG rPm a) = none := by
    rw [npInv, if_pos]
    rw [metricG_det, h, mul_zero]
    ring
  simp [OR_NCtwins, OR_core, hG]

/-- Witness for C6 at the all-zero transformation matrix. -/
theorem OR_NCtwins_singular_witness :
    OR_NCtwins ![0, 1, 0] ![1, 0, 0] (0 : Matrix (Fin 3) (Fin 3) ℝ) 1 true =
      none :=
  OR_NCtwins_singular ![0, 1, 0] ![1, 0, 0] 0 1 true (by simp)

/-- The entry-by-entry shear matrix of the source (lines 187-200) is the
rank-one update `I + s·(rl ⊗ rm)`. -/
lemma shear_entries (s : ℝ) (rl rm : Fin 3 → ℝ) :
    (Matrix.of
      ![![1 + s * rl 0 * rm 0, 0 + s * rl 0 * rm 1, 0 + s * rl 0 * rm 2],
        ![0 + s * rl 1 * rm 0, 1 + s * rl 1 * rm 1, 0 + s * rl 1 * rm 2],
        ![0 + s * rl 2 * rm 0, 0 + s * rl 2 * rm 1, 1 + s * rl 2 * rm 2]]
      : Matrix (Fin 3) (Fin 3) ℝ) =
    1 + s • Matrix.vecMulVec rl rm := by
  ext i j
  fin_cases i <;> fin_cases j <;>
    simp [Matrix.vecMulVec_apply, Matrix.one_apply, mul_assoc]

/-- C1 (amended) — on inputs where the computation is defined (`a ≠ 0`,
`rPm` invertible, the transformed vectors nonzero, the shear matrix
invertible), `OR_NCtwins` returns exactly the formula
`rL = rPm·C·rPm⁻¹·rS⁻¹` of the specification, with
`s = sqrt(trace(CᵗGC·G⁻¹) − 3)`, `rm` the unit vector of `K1·rPm⁻¹`,
`rl` the unit vector of `rPm·eta1`, and `rS = I + s·(rl ⊗ rm)`. -/
theorem OR_NCtwins_eq_formula (K1 eta1 : Fin 3 → ℝ)
    (rPm : Matrix (Fin 3) (Fin 3) ℝ) (a : ℝ)
    (ha : a ≠ 0) (hP : rPm.det ≠ 0)
    (_hm : Matrix.vecMul K1 rPm⁻¹ ≠ 0) (_hl : rPm.mulVec eta1 ≠ 0)
    (hS : (rSspec K1 eta1 rPm a).det ≠ 0) :
    OR_NCtwins K1 eta1 rPm a true = some (OR_formula K1 eta1 rPm a) := by
  have hGdet : (metricG rPm a).det ≠ 0 := by
    rw [metricG_det]
    exact pow_ne_zero _ (mul_ne_zero (pow_ne_zero _ ha) hP)
  have hGinv : npInv (metricG rPm a) = some (metricG rPm a)⁻¹ := by
    rw [npInv, if_neg hGdet]
  have hPinv : npInv rPm = some rPm⁻¹ := by
    rw [npInv, if_neg hP]
  rw [show OR_NCtwins K1 eta1 rPm a true = OR_core K1 eta1 rPm a from rfl]
  simp only [OR_core, hGinv, hPinv]
  rw [shear_entries]
  have hfold :
      (1 + Real.sqrt
          ((corrCᵀ * metricG rPm a * corrC * (metricG rPm a)⁻¹).trace - 3) •
        Matrix.vecMulVec (unit3 (rPm.mulVec eta1))
          (unit3 (Matrix.vecMul K1 rPm⁻¹))) = rSspec K1 eta1 rPm a := rfl
  rw [hfold, npInv, if_neg hS]
  rfl

/-- Counterexample to C1 as stated: at `a = 0` (with `rPm` invertible) the
metric tensor is the zero matrix, `inv(G)` raises the singular-matrix error,
and `OR_NCtwins` returns no matrix at all instead of the claimed formula. -/
theorem OR_NCtwins_formula_cex :
    OR_NCtwins ![0, 1, 0] ![1, 0, 0] (1 : Matrix (Fin 3) (Fin 3) ℝ) 0 true =
      none := by
  have hG : npInv (metricG 1 0) = none := by
    rw [npInv, if_pos]
    rw [metricG_det]
    ring
  simp [OR_NCtwins, OR_core, hG]

/-- Witness for C1 at `K1 = [0,1,0]`, `eta1 = [1,0,0]`, `rPm = I`, `a = 1`. -/
theorem OR_NCtwins_eq_formula_witness :
    OR_NCtwins ![0, 1, 0] ![1, 0, 0] (1 : Matrix (Fin 3) (Fin 3) ℝ) 1 true =
      some (OR_formula ![0, 1, 0] ![1, 0, 0] 1 1) := by
  have hmet : metricG (1 : Matrix (Fin 3) (Fin 3) ℝ) 1 = 1 := by
    simp [metricG]
  have hT : corrCᵀ = (!![0, 1, 0; -1, 0, 0; 0, 0, 1] :
      Matrix (Fin 3) (Fin 3) ℝ) := by
    ext i j
    fin_cases i <;> fin_cases j <;> simp [corrC, Matrix.vecHead, Matrix.vecTail]
  have hCC : corrCᵀ * corrC = (1 : Matrix (Fin 3) (Fin 3) ℝ) := by
    rw [hT]
    ext i j
    fin_cases i <;> fin_cases j <;>
      norm_num [corrC, Matrix.mul_apply, Fin.sum_univ_three,
        Matrix.one_fin_three, Matrix.vecHead, Matrix.vecTail]
  have htr : (corrCᵀ * 1 * corrC * (1 : Matrix (Fin 3) (Fin 3) ℝ)⁻¹).trace =
      (3 : ℝ) := by
    rw [inv_one, Matrix.mul_one, Matrix.mul_one, hCC, Matrix.trace_one]
    simp
  have hshear : shearMag (1 : Matrix (Fin 3) (Fin 3) ℝ) 1 = 0 := by
    rw [shearMag, hmet, htr]
    simp
  refine OR_NCtwins_eq_formula ![0, 1, 0] ![1, 0, 0] 1 1 (by norm_num) (by simp)
    ?_ ?_ ?_
  · rw [inv_one, Matrix.vecMul_one]
    intro h
    have h1 := congrFun h 1
    simp at h1
  · rw [Matrix.one_mulVec]
    intro h
    have h0 := congrFun h 0
    simp at h0
  · rw [rSspec, hshear]
    simp

/-- C8 — the angle calculator is symmetric in its two plane arguments. -/
theorem angleTBpair_symm (rPm : Matrix (Fin 3) (Fin 3) ℝ)
    (k1_m k2_m : Fin 3 → ℝ) :
    angleTBpair rPm k1_m k2_m = angleTBpair rPm k2_m k1_m := by
  unfold angleTBpair
  cases npInv rPm with
  | none => rfl
  | some iP =>
    simp only
    congr 2
    rw [abs_div, abs_div, abs_sub_comm, mul_comm]

lemma dot3_pos {r : Fin 3 → ℝ} (hr : r ≠ 0) : 0 < dot3 r r := by
  rcases Function.ne_iff.mp hr with ⟨i, hi⟩
  simp only [Pi.zero_apply] at hi
  have h0 : (0 : ℝ) ≤ r 0 * r 0 := mul_self_nonneg _
  have h1 : (0 : ℝ) ≤ r 1 * r 1 := mul_self_nonneg _
  have h2 : (0 : ℝ) ≤ r 2 * r 2 := mul_self_nonneg _
  have hp : 0 < r i * r i := mul_self_pos.mpr hi
  unfold dot3
  fin_cases i
  · linarith [show (0 : ℝ) < r 0 * r 0 from hp]
  · linarith [show (0 : ℝ) < r 1 * r 1 from hp]
  · linarith [show (0 : ℝ) < r 2 * r 2 from hp]

lemma unit3_normSq {r : Fin 3 → ℝ} (hr : r ≠ 0) :
    unit3 r 0 ^ 2 + unit3 r 1 ^ 2 + unit3 r 2 ^ 2 = 1 := by
  have hd : 0 < dot3 r r := dot3_pos hr
  have hs : Real.sqrt (dot3 r r) ≠ 0 :=
    (Real.sqrt_pos.mpr hd).ne'
  simp only [unit3]
  field_simp
  simp only [dot3]
  ring

/-- The Rodrigues matrix built from a unit axis is orthogonal. -/
lemma rodrigues_orthog (u : Fin 3 → ℝ) (theta : ℝ)
    (hu : u 0 ^ 2 + u 1 ^ 2 + u 2 ^ 2 = 1) :
    (rodriguesRows u theta)ᵀ * rodriguesRows u theta = 1 := by
  have hsc : Real.sin theta ^ 2 + Real.cos theta ^ 2 = 1 :=
    Real.sin_sq_add_cos_sq theta
  ext i j
  fin_cases i <;> fin_cases j <;>
    simp [rodriguesRows, Matrix.mul_apply, Fin.sum_univ_three,
      Matrix.one_apply, Matrix.vecHead, Matrix.vecTail]
  · linear_combination (u 0 ^ 2 * (1 - Real.cos theta) ^ 2 +
      Real.sin theta ^ 2) * hu + (1 - u 0 ^ 2) * hsc
  · linear_combination (u 0 * u 1 * (1 - Real.cos theta) ^ 2) * hu -
      (u 0 * u 1) * hsc
  · linear_combination (u 0 * u 2 * (1 - Real.cos theta) ^ 2) * hu -
      (u 0 * u 2) * hsc
  · linear_combination (u 0 * u 1 * (1 - Real.cos theta) ^ 2) * hu -
      (u 0 * u 1) * hsc
  · linear_combination (u 1 ^ 2 * (1 - Real.cos theta) ^ 2 +
      Real.sin theta ^ 2) * hu + (1 - u 1 ^ 2) * hsc
  · linear_combination (u 1 * u 2 * (1 - Real.cos theta) ^ 2) * hu -
      (u 1 * u 2) * hsc
  · linear_combination (u 0 * u 2 * (1 - Real.cos theta) ^ 2) * hu -
      (u 0 * u 2) * hsc
  · linear_combination (u 1 * u 2 * (1 - Real.cos theta) ^ 2) * hu -
      (u 1 * u 2) * hsc
  · linear_combination (u 2 ^ 2 * (1 - Real.cos theta) ^ 2 +
      Real.sin theta ^ 2) * hu + (1 - u 2 ^ 2) * hsc

/-- The Rodrigues matrix built from a unit axis has determinant `+1`. -/
lemma rodrigues_det (u : Fin 3 → ℝ) (theta : ℝ)
    (hu : u 0 ^ 2 + u 1 ^ 2 + u 2 ^ 2 = 1) :
    (rodriguesRows u theta).det = 1 := by
  have hsc : Real.sin theta ^ 2 + Real.cos theta ^ 2 = 1 :=
    Real.sin_sq_add_cos_sq theta
  rw [Matrix.det_fin_three]
  simp [rodriguesRows, Matrix.vecHead, Matrix.vecTail]
  linear_combination (Real.cos theta ^ 2 * (1 - Real.cos theta) +
    Real.cos theta * Real.sin theta ^ 2 +
    2 * Real.sin theta ^ 2 * (1 - Real.cos theta) +
    (u 0 ^ 2 + u 1 ^ 2 + u 2 ^ 2 - 1) * Real.sin theta ^ 2 *
      (1 - Real.cos theta)) * hu + hsc

lemma defaultThresh_pos : (0 : ℝ) < defaultThresh := by
  rw [defaultThresh]
  positivity

/-- C7 — `rotationmatrix(r, theta)` is, within the threshold tolerance, a
proper rotation: there is a matrix `R` with `Rᵀ·R = I` and `det R = +1` such
that every entry of the returned matrix is within the default threshold of the
corresponding entry of `R` (the returned matrix is `R` with its sub-threshold
entries zeroed). -/
theorem rotationmatrix_orthogonal (r : Fin 3 → ℝ) (theta : ℝ) (hr : r ≠ 0) :
    ∃ R : Matrix (Fin 3) (Fin 3) ℝ,
      Rᵀ * R = 1 ∧ R.det = 1 ∧
      ∀ i j, |rotationmatrix r theta i j - R i j| < defaultThresh := by
  have hu := unit3_normSq hr
  refine ⟨rodriguesRows (unit3 r) theta, rodrigues_orthog _ _ hu,
    rodrigues_det _ _ hu, ?_⟩
  intro i j
  unfold rotationmatrix applythreshM
  simp only [Matrix.of_apply]
  split_ifs with h
  · rwa [zero_sub, abs_neg]
  · simpa using defaultThresh_pos

/-- Witness for C7 at `r = [0,0,1]`, `theta = 0`. -/
theorem rotationmatrix_orthogonal_witness :
    ∃ R : Matrix (Fin 3) (Fin 3) ℝ,
      Rᵀ * R = 1 ∧ R.det = 1 ∧
      ∀ i j, |rotationmatrix ![0, 0, 1] 0 i j - R i j| < defaultThresh :=
  rotationmatrix_orthogonal ![0, 0, 1] 0 (by
    intro h
    have h2 := congrFun h 2
    simp at h2)

lemma dot3_smul (c : ℝ) (r : Fin 3 → ℝ) :
    dot3 (c • r) (c • r) = c ^ 2 * dot3 r r := by
  simp only [dot3, Pi.smul_apply, smul_eq_mul]
  ring

lemma unit3_smul {c : ℝ} (hc : 0 < c) (r : Fin 3 → ℝ) :
    unit3 (c • r) = unit3 r := by
  funext i
  simp only [unit3, Pi.smul_apply, smul_eq_mul, dot3_smul]
  rw [Real.sqrt_mul (sq_nonneg c), Real.sqrt_sq hc.le,
    mul_div_mul_left _ _ hc.ne']

/-- C10 — `rotationmatrix` is invariant under positive rescaling of the axis:
the axis is normalised to a unit vector before the Rodrigues formula is
applied, so only its direction matters. -/
theorem rotationmatrix_scale_invariant (r : Fin 3 → ℝ) (c theta : ℝ)
    (hc : 0 < c) (_hr : r ≠ 0) :
    rotationmatrix (c • r) theta = rotationmatrix r theta := by
  unfold rotationmatrix
  rw [unit3_smul hc]

/-- Witness for C10 at `r = [0,0,1]`, `c = 2`, `theta = 0`. -/
theorem rotationmatrix_scale_invariant_witness :
    rotationmatrix ((2 : ℝ) • ![0, 0, 1]) 0 = rotationmatrix ![0, 0, 1] 0 :=
  rotationmatrix_scale_invariant ![0, 0, 1] 2 0 (by norm_num) (by
    intro h
    have h2 := congrFun h 2
    simp at h2)
